import Mathlib

set_option maxHeartbeats 1000000

/-!
Verification of the Porffor explorer compiler bridge.

This development shallowly embeds `src/explorer/compiler-bridge.js`:
its regex tokenizer `tokenize`, the runtime-import setup
(`setupImports`), and the staged `compileAll` driver (tokenize, parse,
semantic analysis, codegen, peephole optimization, assembly, with
per-stage timing and a single try/catch around the stage chain).
The compiler stages themselves (`parse.js`, `semantic.js`,
`codegen.js`, `opt.js`, `assemble.js`, `builtins.js`) are not part of
this repository snapshot; `compileAll` is therefore embedded
parametrically over the stage functions, and the properties about the
interior of codegen (function return arity) and of the assembler
(deferred-instruction resolution) are settled against definitions
modelled from the specification, marked `Modelled from the spec:`.

Strings are modelled as lists of Unicode scalar characters (`List
Char`); JS indexes strings by UTF-16 code unit, which coincides on the
basic multilingual plane.  Rational numbers stand in for JS float64
clock readings; the claims proved about times use only ordering, not
rounding.
-/

namespace Porffor

/-! ## Tokenizer (`tokenize`, compiler-bridge.js lines 38–82)

Each JS regex of the `patterns` table is translated to a deterministic
maximal/first-match length function on the remaining input.  All the
regexes are anchored (`^`), and on success consume at least one
character, which is what makes the scanning loop terminate. -/

/-- The JS `\s` class used by the `whitespace` pattern `^\s+`:
ECMAScript WhiteSpace and LineTerminator characters. -/
def isWsChar (c : Char) : Bool :=
  c == ' ' || c == '\t' || c == '\n' || c == '\r' || c == '\x0b' || c == '\x0c' ||
  c == ' ' || c == ' ' ||
  (decide (' ' ≤ c) && decide (c ≤ ' ')) ||
  c == ' ' || c == ' ' || c == ' ' || c == ' ' ||
  c == '　' || c == '﻿'

/-- ECMAScript LineTerminator, excluded by the regex `.` in `\\.`. -/
def isLineTerm (c : Char) : Bool :=
  c == '\n' || c == '\r' || c == ' ' || c == ' '

/-- `^\s+` : length of the (maximal, nonempty) leading whitespace run. -/
def matchWs (cs : List Char) : Option Nat :=
  let n := (cs.takeWhile isWsChar).length
  if n = 0 then none else some n

/-- `^\/\/[^\n]*` : a line comment. -/
def matchLineComment : List Char → Option Nat
  | '/' :: '/' :: rest => some (2 + (rest.takeWhile (fun c => !(c == '\n'))).length)
  | _ => none

/-- Length up to and including the first `*` `/` pair, the lazy
`[\s\S]*?\*\/` tail of the block-comment regex. -/
def closeStar : List Char → Option Nat
  | [] => none
  | '*' :: '/' :: _ => some 2
  | _ :: rest => (closeStar rest).map (· + 1)

/-- `^\/\*[\s\S]*?\*\/` : a block comment. -/
def matchBlockComment : List Char → Option Nat
  | '/' :: '*' :: rest => (closeStar rest).map (2 + ·)
  | _ => none

/-- Body of `(?:[^q\\]|\\.)*q` after the opening quote `q`: number of
characters consumed including the closing quote.  The alternation is
deterministic: a backslash can only start the `\\.` branch, the quote
can only end the string, and anything else (newlines included) is
consumed by the negated class. -/
def strBody (q : Char) : List Char → Option Nat
  | [] => none
  | c :: rest =>
    if c = q then some 1
    else if c = '\\' then
      match rest with
      | [] => none
      | d :: rest2 => if isLineTerm d then none else (strBody q rest2).map (· + 2)
    else (strBody q rest).map (· + 1)

/-- `^q(?:[^q\\]|\\.)*q` for a quote character `q` (the source uses
`"`, `'` and the backquote). -/
def matchStr (q : Char) : List Char → Option Nat
  | c :: rest => if c = q then (strBody q rest).map (· + 1) else none
  | [] => none

def isHexDigitCh (c : Char) : Bool :=
  c.isDigit || (decide ('a' ≤ c) && decide (c ≤ 'f')) || (decide ('A' ≤ c) && decide (c ≤ 'F'))

def isOctDigitCh (c : Char) : Bool :=
  decide ('0' ≤ c) && decide (c ≤ '7')

def isBinDigitCh (c : Char) : Bool :=
  c == '0' || c == '1'

/-- Length of the leading run of decimal digits (`\d*`). -/
def decDigits (cs : List Char) : Nat := (cs.takeWhile Char.isDigit).length

/-- The three radix alternatives `0[xX]hex+ | 0[oO]oct+ | 0[bB]bin+` of
the number regex, tried before the decimal alternative. -/
def matchRadix : List Char → Option Nat
  | '0' :: c :: rest =>
    if c = 'x' ∨ c = 'X' then
      let n := (rest.takeWhile isHexDigitCh).length
      if n = 0 then none else some (2 + n)
    else if c = 'o' ∨ c = 'O' then
      let n := (rest.takeWhile isOctDigitCh).length
      if n = 0 then none else some (2 + n)
    else if c = 'b' ∨ c = 'B' then
      let n := (rest.takeWhile isBinDigitCh).length
      if n = 0 then none else some (2 + n)
    else none
  | _ => none

/-- The optional fraction group `(?:\.\d*)?` : characters it consumes. -/
def fracLen : List Char → Nat
  | '.' :: r => 1 + decDigits r
  | _ => 0

/-- The optional sign `[+-]?` inside the exponent group. -/
def sgnLen : List Char → Nat
  | c :: _ => if c = '+' ∨ c = '-' then 1 else 0
  | [] => 0

/-- The optional exponent group `(?:[eE][+-]?\d+)?` : characters it
consumes; the group is dropped (consumes 0) when no digit follows the
optional sign, matching regex backtracking over an optional group. -/
def expoLen : List Char → Nat
  | e :: r =>
    if e = 'e' ∨ e = 'E' then
      let sgn := sgnLen r
      let ed := decDigits (r.drop sgn)
      if ed = 0 then 0 else 1 + sgn + ed
    else 0
  | [] => 0

/-- `\d+(?:\.\d*)?(?:[eE][+-]?\d+)?` : the decimal alternative. -/
def matchDecimal (cs : List Char) : Option Nat :=
  let d := decDigits cs
  if d = 0 then none else
    let rest1 := cs.drop d
    let frac := fracLen rest1
    let rest2 := rest1.drop frac
    some (d + frac + expoLen rest2)

/-- `^(?:0[xX]..|0[oO]..|0[bB]..|\d+(\.\d*)?([eE][+-]?\d+)?)`. -/
def matchNumber (cs : List Char) : Option Nat :=
  match matchRadix cs with
  | some n => some n
  | none => matchDecimal cs

/-- The keyword alternation of the source regex, in source order. -/
def kwStrs : List String :=
  ["const", "let", "var", "function", "return", "if", "else", "for", "while", "do",
   "switch", "case", "break", "continue", "new", "this", "class", "extends",
   "import", "export", "from", "default", "typeof", "instanceof", "void",
   "delete", "in", "of", "try", "catch", "finally", "throw", "async", "await",
   "yield", "static", "get", "set", "true", "false", "null", "undefined"]

/-- Regex `\w` (`[A-Za-z0-9_]`), used by the `\b` boundary check. -/
def isWordChar (c : Char) : Bool := c.isAlpha || c.isDigit || c == '_'

/-- One keyword alternative followed by `\b`: matches when the keyword
is a prefix and the next character (if any) is not a word character. -/
def kwMatchOne (kw : List Char) (cs : List Char) : Option Nat :=
  if kw.isPrefixOf cs then
    match cs.drop kw.length with
    | [] => some kw.length
    | d :: _ => if isWordChar d then none else some kw.length
  else none

/-- First keyword alternative (in regex order) that matches with a word
boundary; regex backtracking tries the next alternative on a failed
boundary check. -/
def kwFirst : List (List Char) → List Char → Option Nat
  | [], _ => none
  | kw :: kws, cs =>
    match kwMatchOne kw cs with
    | some n => some n
    | none => kwFirst kws cs

def matchKeyword (cs : List Char) : Option Nat :=
  kwFirst (kwStrs.map String.data) cs

def punctChars : List Char :=
  ['[', ']', '\x7b', '\x7d', '(', ')', '.', ',', ';', ':', '?']

/-- `^(?:=>|\.\.\.|[\[\]\x7b\x7d().,;:?])`. -/
def matchPunct : List Char → Option Nat
  | '=' :: '>' :: _ => some 2
  | '.' :: '.' :: '.' :: _ => some 3
  | c :: _ => if punctChars.contains c then some 1 else none
  | [] => none

/-- The multi-character operator alternatives in source order
(`>>>?` expanded into its greedy order). -/
def opStrs : List String :=
  ["===", "!==", "==", "!=", "<=", ">=", "&&", "||", "??", "**", "++", "--",
   "<<", ">>>", ">>"]

def opFirst : List (List Char) → List Char → Option Nat
  | [], _ => none
  | op :: ops, cs => if op.isPrefixOf cs then some op.length else opFirst ops cs

def opChars : List Char :=
  ['+', '-', '*', '/', '%', '&', '|', '^', '~', '<', '>', '!', '=']

/-- The operator regex: the multi-character alternatives, then
`[+\-*\/%&|^~<>!=]=?` (one operator character, greedily followed by an
optional `=`). -/
def matchOperator (cs : List Char) : Option Nat :=
  match opFirst (opStrs.map String.data) cs with
  | some n => some n
  | none =>
    match cs with
    | c :: rest =>
      if opChars.contains c then
        match rest with
        | '=' :: _ => some 2
        | _ => some 1
      else none
    | [] => none

def isIdentStart (c : Char) : Bool := c.isAlpha || c == '_' || c == '$'

def isIdentPart (c : Char) : Bool := c.isAlpha || c.isDigit || c == '_' || c == '$'

/-- `^[a-zA-Z_$][a-zA-Z0-9_$]*`. -/
def matchIdent : List Char → Option Nat
  | c :: rest =>
    if isIdentStart c then some (1 + (rest.takeWhile isIdentPart).length) else none
  | [] => none

/-- The `patterns` table of `tokenize`, in source order; each entry is
the token type string paired with the translated regex matcher. -/
def patterns : List (String × (List Char → Option Nat)) :=
  [("whitespace", matchWs),
   ("comment", matchLineComment),
   ("comment", matchBlockComment),
   ("string", matchStr '"'),
   ("string", matchStr '\x27'),
   ("string", matchStr '\x60'),
   ("number", matchNumber),
   ("keyword", matchKeyword),
   ("punctuation", matchPunct),
   ("operator", matchOperator),
   ("identifier", matchIdent)]

/-- A token as pushed by `tokenize`: `{ type, value, start, end }`.
The `end` field is called `endPos` here (`end` is a Lean keyword). -/
structure Token where
  type : String
  value : List Char
  start : Nat
  endPos : Nat
deriving DecidableEq, Repr

/-- First pattern of the table that matches, as the `for … break` loop
of `tokenize` does. -/
def firstMatchAux : List (String × (List Char → Option Nat)) → List Char →
    Option (String × Nat)
  | [], _ => none
  | (ty, m) :: ps, cs =>
    match m cs with
    | some n => some (ty, n)
    | none => firstMatchAux ps cs

def firstMatch (cs : List Char) : Option (String × Nat) :=
  firstMatchAux patterns cs

theorem takeWhile_length_le (p : Char → Bool) :
    ∀ l : List Char, (l.takeWhile p).length ≤ l.length := by
  intro l
  induction l with
  | nil => simp
  | cons c t ih =>
    by_cases h : p c
    · simp [List.takeWhile, h]
      omega
    · simp [List.takeWhile, h]

theorem matchWs_bound {cs : List Char} {n : Nat} (h : matchWs cs = some n) :
    1 ≤ n ∧ n ≤ cs.length := by
  simp only [matchWs] at h
  split at h
  · exact absurd h (by simp)
  · have hb := takeWhile_length_le isWsChar cs
    simp only [Option.some.injEq] at h
    omega

theorem matchLineComment_bound {cs : List Char} {n : Nat}
    (h : matchLineComment cs = some n) : 1 ≤ n ∧ n ≤ cs.length := by
  unfold matchLineComment at h
  split at h
  · rename_i rest
    have hb := takeWhile_length_le (fun c => !(c == '\n')) rest
    simp only [Option.some.injEq] at h
    simp only [List.length_cons]
    omega
  · exact absurd h (by simp)

theorem closeStar_bound : ∀ {cs : List Char} {n : Nat},
    closeStar cs = some n → 2 ≤ n ∧ n ≤ cs.length
  | [], n, h => absurd h (by simp [closeStar])
  | c :: rest, n, h => by
    unfold closeStar at h
    split at h
    · exact absurd h (by simp)
    · simp only [Option.some.injEq] at h
      rename_i heq
      rw [heq]
      simp only [List.length_cons]
      omega
    · rename_i l hd tl hno heq
      injection heq with h1 h2
      subst h1
      subst h2
      simp only [Option.map_eq_some'] at h
      obtain ⟨m, hm, rfl⟩ := h
      have := closeStar_bound hm
      simp only [List.length_cons]
      omega

theorem matchBlockComment_bound {cs : List Char} {n : Nat}
    (h : matchBlockComment cs = some n) : 1 ≤ n ∧ n ≤ cs.length := by
  unfold matchBlockComment at h
  split at h
  · rename_i rest
    simp only [Option.map_eq_some'] at h
    obtain ⟨m, hm, rfl⟩ := h
    have := closeStar_bound hm
    simp only [List.length_cons]
    omega
  · exact absurd h (by simp)

theorem strBody_bound (q : Char) : ∀ {cs : List Char} {n : Nat},
    strBody q cs = some n → 1 ≤ n ∧ n ≤ cs.length
  | [], n, h => absurd h (by simp [strBody])
  | c :: rest, n, h => by
    unfold strBody at h
    split at h
    · simp only [Option.some.injEq] at h
      simp only [List.length_cons]
      omega
    · split at h
      · split at h
        · exact absurd h (by simp)
        · split at h
          · exact absurd h (by simp)
          · simp only [Option.map_eq_some'] at h
            obtain ⟨m, hm, rfl⟩ := h
            have := strBody_bound q hm
            rename_i d rest2 _ _
            simp only [List.length_cons]
            omega
      · simp only [Option.map_eq_some'] at h
        obtain ⟨m, hm, rfl⟩ := h
        have := strBody_bound q hm
        simp only [List.length_cons]
        omega

theorem matchStr_bound (q : Char) {cs : List Char} {n : Nat}
    (h : matchStr q cs = some n) : 1 ≤ n ∧ n ≤ cs.length := by
  unfold matchStr at h
  split at h
  · split at h
    · simp only [Option.map_eq_some'] at h
      obtain ⟨m, hm, rfl⟩ := h
      have := strBody_bound q hm
      simp only [List.length_cons]
      omega
    · exact absurd h (by simp)
  · exact absurd h (by simp)

theorem matchRadix_bound {cs : List Char} {n : Nat}
    (h : matchRadix cs = some n) : 1 ≤ n ∧ n ≤ cs.length := by
  simp only [matchRadix] at h
  split at h
  · rename_i c rest
    split at h
    · split at h
      · exact absurd h (by simp)
      · have hb := takeWhile_length_le isHexDigitCh rest
        simp only [Option.some.injEq] at h
        simp only [List.length_cons]
        omega
    · split at h
      · split at h
        · exact absurd h (by simp)
        · have hb := takeWhile_length_le isOctDigitCh rest
          simp only [Option.some.injEq] at h
          simp only [List.length_cons]
          omega
      · split at h
        · split at h
          · exact absurd h (by simp)
          · have hb := takeWhile_length_le isBinDigitCh rest
            simp only [Option.some.injEq] at h
            simp only [List.length_cons]
            omega
        · exact absurd h (by simp)
  · exact absurd h (by simp)

theorem decDigits_le (cs : List Char) : decDigits cs ≤ cs.length :=
  takeWhile_length_le Char.isDigit cs

theorem fracLen_le (rest1 : List Char) : fracLen rest1 ≤ rest1.length := by
  unfold fracLen
  split
  · rename_i r
    have := decDigits_le r
    simp only [List.length_cons]
    omega
  · omega

theorem sgnLen_le (r : List Char) : sgnLen r ≤ r.length := by
  unfold sgnLen
  split
  · split <;> simp
  · omega

theorem expoLen_le (rest2 : List Char) : expoLen rest2 ≤ rest2.length := by
  simp only [expoLen]
  split
  · rename_i e r
    split
    · have hs := sgnLen_le r
      have hd := decDigits_le (r.drop (sgnLen r))
      simp only [List.length_drop] at hd
      split
      · omega
      · simp only [List.length_cons]
        omega
    · omega
  · omega

theorem matchDecimal_bound {cs : List Char} {n : Nat}
    (h : matchDecimal cs = some n) : 1 ≤ n ∧ n ≤ cs.length := by
  simp only [matchDecimal] at h
  split at h
  · exact absurd h (by simp)
  · rename_i hd0
    simp only [Option.some.injEq] at h
    have hd : decDigits cs ≤ cs.length := decDigits_le cs
    have hfrac := fracLen_le (cs.drop (decDigits cs))
    have hexpo := expoLen_le ((cs.drop (decDigits cs)).drop (fracLen (cs.drop (decDigits cs))))
    simp only [List.length_drop] at hfrac hexpo
    omega

theorem matchNumber_bound {cs : List Char} {n : Nat}
    (h : matchNumber cs = some n) : 1 ≤ n ∧ n ≤ cs.length := by
  unfold matchNumber at h
  split at h
  · rename_i m heq
    simp only [Option.some.injEq] at h
    subst h
    exact matchRadix_bound heq
  · exact matchDecimal_bound h

theorem kwMatchOne_bound {kw cs : List Char} {n : Nat} (hkw : kw ≠ [])
    (h : kwMatchOne kw cs = some n) : 1 ≤ n ∧ n ≤ cs.length := by
  unfold kwMatchOne at h
  split at h
  · rename_i hp
    have hlen : kw.length ≤ cs.length := (List.isPrefixOf_iff_prefix.mp hp).length_le
    have hkl : 1 ≤ kw.length := by
      rcases kw with _ | _
      · exact absurd rfl hkw
      · simp
    split at h
    · simp only [Option.some.injEq] at h
      omega
    · split at h
      · exact absurd h (by simp)
      · simp only [Option.some.injEq] at h
        omega
  · exact absurd h (by simp)

theorem kwFirst_bound : ∀ {kws : List (List Char)} {cs : List Char} {n : Nat},
    (∀ kw ∈ kws, kw ≠ []) → kwFirst kws cs = some n → 1 ≤ n ∧ n ≤ cs.length := by
  intro kws
  induction kws with
  | nil => intro cs n _ h; exact absurd h (by simp [kwFirst])
  | cons kw kws ih =>
    intro cs n hne h
    unfold kwFirst at h
    split at h
    · rename_i m heq
      simp only [Option.some.injEq] at h
      subst h
      exact kwMatchOne_bound (hne kw (by simp)) heq
    · exact ih (fun k hk => hne k (by simp [hk])) h

theorem matchKeyword_bound {cs : List Char} {n : Nat}
    (h : matchKeyword cs = some n) : 1 ≤ n ∧ n ≤ cs.length := by
  refine kwFirst_bound ?_ h
  intro kw hkw
  simp only [kwStrs, List.map_cons, List.map_nil, List.mem_cons,
    List.not_mem_nil, or_false] at hkw
  rcases hkw with rfl | rfl | rfl | rfl | rfl | rfl | rfl | rfl | rfl | rfl |
    rfl | rfl | rfl | rfl | rfl | rfl | rfl | rfl | rfl | rfl |
    rfl | rfl | rfl | rfl | rfl | rfl | rfl | rfl | rfl | rfl |
    rfl | rfl | rfl | rfl | rfl | rfl | rfl | rfl | rfl | rfl |
    rfl | rfl <;> simp

theorem matchPunct_bound {cs : List Char} {n : Nat}
    (h : matchPunct cs = some n) : 1 ≤ n ∧ n ≤ cs.length := by
  unfold matchPunct at h
  split at h <;>
    first
      | (simp only [Option.some.injEq] at h; simp only [List.length_cons]; omega)
      | (split at h
         · simp only [Option.some.injEq] at h
           simp only [List.length_cons]
           omega
         · exact absurd h (by simp))
      | exact absurd h (by simp)

theorem opFirst_bound : ∀ {ops : List (List Char)} {cs : List Char} {n : Nat},
    (∀ op ∈ ops, op ≠ []) → opFirst ops cs = some n → 1 ≤ n ∧ n ≤ cs.length := by
  intro ops
  induction ops with
  | nil => intro cs n _ h; exact absurd h (by simp [opFirst])
  | cons op ops ih =>
    intro cs n hne h
    unfold opFirst at h
    split at h
    · rename_i hp
      have hlen : op.length ≤ cs.length := (List.isPrefixOf_iff_prefix.mp hp).length_le
      have hkl : 1 ≤ op.length := by
        have : op ≠ [] := hne op (by simp)
        rcases op with _ | _
        · exact absurd rfl this
        · simp
      simp only [Option.some.injEq] at h
      omega
    · exact ih (fun k hk => hne k (by simp [hk])) h

theorem matchOperator_bound {cs : List Char} {n : Nat}
    (h : matchOperator cs = some n) : 1 ≤ n ∧ n ≤ cs.length := by
  unfold matchOperator at h
  split at h
  · rename_i m heq
    simp only [Option.some.injEq] at h
    subst h
    refine opFirst_bound ?_ heq
    intro op hop
    simp only [opStrs, List.map_cons, List.map_nil, List.mem_cons,
      List.not_mem_nil, or_false] at hop
    rcases hop with rfl | rfl | rfl | rfl | rfl | rfl | rfl | rfl | rfl | rfl |
      rfl | rfl | rfl | rfl | rfl <;> simp
  · split at h
    · split at h
      · split at h
        · simp only [Option.some.injEq] at h
          simp only [List.length_cons]
          omega
        · simp only [Option.some.injEq] at h
          simp only [List.length_cons]
          omega
      · exact absurd h (by simp)
    · exact absurd h (by simp)

theorem matchIdent_bound {cs : List Char} {n : Nat}
    (h : matchIdent cs = some n) : 1 ≤ n ∧ n ≤ cs.length := by
  unfold matchIdent at h
  split at h
  · rename_i c rest
    split at h
    · simp only [Option.some.injEq] at h
      have := takeWhile_length_le isIdentPart rest
      simp only [List.length_cons]
      omega
    · exact absurd h (by simp)
  · exact absurd h (by simp)

theorem patterns_bound : ∀ p ∈ patterns, ∀ (cs : List Char) (m : Nat),
    p.2 cs = some m → 1 ≤ m ∧ m ≤ cs.length := by
  intro p hp cs m h
  simp only [patterns, List.mem_cons, List.not_mem_nil, or_false] at hp
  rcases hp with rfl | rfl | rfl | rfl | rfl | rfl | rfl | rfl | rfl | rfl | rfl
  · exact matchWs_bound h
  · exact matchLineComment_bound h
  · exact matchBlockComment_bound h
  · exact matchStr_bound _ h
  · exact matchStr_bound _ h
  · exact matchStr_bound _ h
  · exact matchNumber_bound h
  · exact matchKeyword_bound h
  · exact matchPunct_bound h
  · exact matchOperator_bound h
  · exact matchIdent_bound h

theorem firstMatchAux_bound :
    ∀ (ps : List (String × (List Char → Option Nat))) (cs : List Char)
      (ty : String) (n : Nat),
      (∀ p ∈ ps, ∀ m, p.2 cs = some m → 1 ≤ m ∧ m ≤ cs.length) →
      firstMatchAux ps cs = some (ty, n) → 1 ≤ n ∧ n ≤ cs.length := by
  intro ps
  induction ps with
  | nil => intro cs ty n _ h; exact absurd h (by simp [firstMatchAux])
  | cons p ps ih =>
    intro cs ty n hb h
    obtain ⟨pty, pm⟩ := p
    unfold firstMatchAux at h
    split at h
    · rename_i m heq
      simp only [Option.some.injEq, Prod.mk.injEq] at h
      obtain ⟨rfl, rfl⟩ := h
      exact hb (pty, pm) (by simp) m heq
    · exact ih cs ty n (fun q hq => hb q (by simp [hq])) h

theorem firstMatch_bound (cs : List Char) (ty : String) (n : Nat)
    (h : firstMatch cs = some (ty, n)) : 1 ≤ n ∧ n ≤ cs.length :=
  firstMatchAux_bound patterns cs ty n
    (fun p hp m hm => patterns_bound p hp cs m hm) h

/-- The scanning loop of `tokenize`: while `pos < source.length`, match
the first pattern at `pos` (skipping whitespace, pushing other tokens),
or push a one-character `unknown` token; every step advances `pos` by
at least one (`firstMatch_bound`), which is the loop variant. -/
def tokenizeAux (src : List Char) (pos : Nat) : List Token :=
  if hlt : pos < src.length then
    match hm : firstMatch (src.drop pos) with
    | some (ty, n) =>
      if ty = "whitespace" then tokenizeAux src (pos + n)
      else
        { type := ty, value := (src.drop pos).take n, start := pos,
          endPos := pos + n } :: tokenizeAux src (pos + n)
    | none =>
      { type := "unknown", value := (src.drop pos).take 1, start := pos,
        endPos := pos + 1 } :: tokenizeAux src (pos + 1)
  else []
termination_by src.length - pos
decreasing_by
  · have h1 := (firstMatch_bound _ _ _ hm).1
    omega
  · have h1 := (firstMatch_bound _ _ _ hm).1
    omega
  · omega

/-- `tokenize` from compiler-bridge.js.  The `try`/`catch` wrapper of
the source can never take its catch branch (the loop body is
exception-free), so it is not modelled. -/
def tokenize (source : String) : List Token :=
  tokenizeAux source.data 0

theorem tokenizeAux_stop (src : List Char) (pos : Nat) (h : ¬ pos < src.length) :
    tokenizeAux src pos = [] := by
  rw [tokenizeAux.eq_def]
  rw [dif_neg h]

theorem tokenizeAux_ws (src : List Char) (pos n : Nat)
    (hlt : pos < src.length)
    (hfm : firstMatch (src.drop pos) = some ("whitespace", n)) :
    tokenizeAux src pos = tokenizeAux src (pos + n) := by
  rw [tokenizeAux.eq_def]
  rw [dif_pos hlt]
  split
  · rename_i ty m heq
    rw [hfm] at heq
    simp only [Option.some.injEq, Prod.mk.injEq] at heq
    obtain ⟨rfl, rfl⟩ := heq
    rw [if_pos rfl]
  · rename_i heq
    rw [hfm] at heq
    exact absurd heq (by simp)

theorem tokenizeAux_tok (src : List Char) (pos n : Nat) (ty : String)
    (hlt : pos < src.length)
    (hfm : firstMatch (src.drop pos) = some (ty, n))
    (hws : ¬ ty = "whitespace") :
    tokenizeAux src pos =
      { type := ty, value := (src.drop pos).take n, start := pos,
        endPos := pos + n } :: tokenizeAux src (pos + n) := by
  rw [tokenizeAux.eq_def]
  rw [dif_pos hlt]
  split
  · rename_i ty2 m heq
    rw [hfm] at heq
    simp only [Option.some.injEq, Prod.mk.injEq] at heq
    obtain ⟨rfl, rfl⟩ := heq
    rw [if_neg hws]
  · rename_i heq
    rw [hfm] at heq
    exact absurd heq (by simp)

theorem tokenizeAux_unknown (src : List Char) (pos : Nat)
    (hlt : pos < src.length)
    (hfm : firstMatch (src.drop pos) = none) :
    tokenizeAux src pos =
      { type := "unknown", value := (src.drop pos).take 1, start := pos,
        endPos := pos + 1 } :: tokenizeAux src (pos + 1) := by
  rw [tokenizeAux.eq_def]
  rw [dif_pos hlt]
  split
  · rename_i ty m heq
    rw [hfm] at heq
    exact absurd heq (by simp)
  · rfl

/-- Loop invariant of `tokenize`: every produced token starts at or
after the scanning position, spans a nonempty in-bounds range whose
`value` is exactly the corresponding slice of the source, is never a
whitespace token, and tokens are emitted in order without overlap. -/
theorem tokenizeAux_sound (src : List Char) :
    ∀ (fuel pos : Nat), src.length - pos ≤ fuel →
      (∀ t ∈ tokenizeAux src pos,
          pos ≤ t.start ∧ t.start < t.endPos ∧ t.endPos ≤ src.length ∧
          t.value = (src.drop t.start).take (t.endPos - t.start) ∧
          t.type ≠ "whitespace") ∧
      List.Chain' (fun a b => a.endPos ≤ b.start) (tokenizeAux src pos) := by
  intro fuel
  induction fuel with
  | zero =>
    intro pos hf
    have hstop : ¬ pos < src.length := by omega
    rw [tokenizeAux_stop src pos hstop]
    exact ⟨by simp, by simp⟩
  | succ fuel ih =>
    intro pos hf
    by_cases hlt : pos < src.length
    · cases hfm : firstMatch (src.drop pos) with
      | none =>
        rw [tokenizeAux_unknown src pos hlt hfm]
        have hrec := ih (pos + 1) (by omega)
        constructor
        · intro t ht
          rcases List.mem_cons.mp ht with rfl | htl
          · refine ⟨le_refl _, show pos < pos + 1 by omega,
              show pos + 1 ≤ src.length by omega, ?_, by simp⟩
            show (src.drop pos).take 1 = (src.drop pos).take (pos + 1 - pos)
            simp
          · have h1 := hrec.1 t htl
            exact ⟨by omega, h1.2.1, h1.2.2.1, h1.2.2.2.1, h1.2.2.2.2⟩
        · rw [List.chain'_cons']
          refine ⟨?_, hrec.2⟩
          intro b hb
          have hbmem : b ∈ tokenizeAux src (pos + 1) := List.mem_of_mem_head? hb
          exact (hrec.1 b hbmem).1
      | some tn =>
        obtain ⟨ty, n⟩ := tn
        have hb := firstMatch_bound _ _ _ hfm
        have hdl : (src.drop pos).length = src.length - pos := by
          simp [List.length_drop]
        by_cases hws : ty = "whitespace"
        · subst hws
          rw [tokenizeAux_ws src pos n hlt hfm]
          have hrec := ih (pos + n) (by omega)
          constructor
          · intro t ht
            have h1 := hrec.1 t ht
            exact ⟨by omega, h1.2.1, h1.2.2.1, h1.2.2.2.1, h1.2.2.2.2⟩
          · exact hrec.2
        · rw [tokenizeAux_tok src pos n ty hlt hfm hws]
          have hrec := ih (pos + n) (by omega)
          constructor
          · intro t ht
            rcases List.mem_cons.mp ht with rfl | htl
            · refine ⟨le_refl _, show pos < pos + n by omega,
                show pos + n ≤ src.length by omega, ?_, hws⟩
              show (src.drop pos).take n = (src.drop pos).take (pos + n - pos)
              simp
            · have h1 := hrec.1 t htl
              exact ⟨by omega, h1.2.1, h1.2.2.1, h1.2.2.2.1, h1.2.2.2.2⟩
          · rw [List.chain'_cons']
            refine ⟨?_, hrec.2⟩
            intro b hb
            have hbmem : b ∈ tokenizeAux src (pos + n) := List.mem_of_mem_head? hb
            exact (hrec.1 b hbmem).1
    · rw [tokenizeAux_stop src pos hlt]
      exact ⟨by simp, by simp⟩

/-! ## Runtime imports and global compiler state

`compiler-bridge.js` lines 12–15 and 26–33: the bridge sets the
process-wide valtype/pageSize globals, and `setupImports` resets
the import table and registers the four runtime imports. -/

/-- Wasm value types (`wasmSpec.js` `Valtype`). -/
inductive Valtype where
  | f64
  | i32
  | i64
  | f32
deriving DecidableEq, Repr

/-- `wasmSpec.js` `PageSize`: one Wasm page, 64 KiB. -/
def PageSize : Nat := 65536

/-- An exception/error value as `compileAll` records it:
`{ message: e.message, stack: e.stack }`. -/
structure JsErr where
  message : String
  stack : String
deriving DecidableEq, Repr

/-- One entry of the import table: name and arities.  Modelled from the
spec: `builtins.js` `createImport(name, params, returns, fn)` registers
an import with `params` parameters and `returns` results; the host
callback `fn` has no compile-time effect and is not modelled. -/
structure ImportEntry where
  name : String
  params : Nat
  results : Nat
deriving DecidableEq, Repr

/-- Modelled from the spec: `builtins.js` `setImports` re-initializes
the import table (fresh state per compile). -/
def setImports : List ImportEntry := []

/-- Modelled from the spec: `builtins.js` `createImport` appends
an import descriptor to the table. -/
def createImport (table : List ImportEntry) (name : String)
    (params results : Nat) : List ImportEntry :=
  table ++ [{ name := name, params := params, results := results }]

/-- `setupImports` from compiler-bridge.js lines 26–33: reset the
table, then register print(1,0), printChar(1,0), time(0,1),
timeOrigin(0,1). -/
def setupImports : List ImportEntry :=
  createImport
    (createImport
      (createImport
        (createImport setImports "print" 1 0)
        "printChar" 1 0)
      "time" 0 1)
    "timeOrigin" 0 1

/-- The ambient (process-wide) mutable compiler state the bridge
touches: `globalThis._uniqId`, the import table, and the
valtype/pageSize globals. -/
structure GState where
  uniqId : Nat
  imports : List ImportEntry
  valtype : Valtype
  pageSize : Nat
deriving DecidableEq, Repr

/-- The state `compileAll` establishes just before codegen (lines
121–125): `_uniqId = 0`, `setupImports()`, `valtype = 'f64'`,
`pageSize = PageSize / 4`. -/
def resetGS : GState :=
  { uniqId := 0, imports := setupImports, valtype := Valtype.f64,
    pageSize := PageSize / 4 }

/-! ## The staged `compileAll` driver

The compiler stages (`parse.js`, `semantic.js`, `codegen.js`, `opt.js`,
`assemble.js`, `disassemble.js`) are external to this snapshot, so
`compileAll` is embedded parametrically over them.  A stage that can
throw is an `Except JsErr` function.  JS mutation is rendered by value
passing: `semantic` returns the annotated tree (the JS mutates a deep
clone of the parse AST, so the parse stage's recorded AST is
unchanged), `opt` returns the rewritten module, and since
`result.stages.codegen.data` and `result.stages.opt.data` alias the
one module object that `opt` mutates in place, both fields hold the
post-optimization module value here — that is what a caller observes
after `compileAll` returns. -/

structure Stages (AST IR F Bin : Type) where
  parse : String → Except JsErr AST
  semantic : AST → Except JsErr AST
  codegen : AST → GState → Except JsErr IR
  funcs : IR → List F
  funcName : F → String
  disassembleFunc : F → Except JsErr String
  opt : IR → Except JsErr IR
  assemble : IR → Except JsErr Bin

/-- One `result.stages.<key>` record: `{ name, data, time }`, plus the
`disassembly` map attached to the codegen and opt records. -/
structure StageRec (α : Type) where
  name : String
  data : α
  time : ℚ
  disassembly : Option (List (String × String))

/-- The `result` object of `compileAll`. -/
structure Results (AST IR Bin : Type) where
  tokens : Option (StageRec (List Token))
  parse : Option (StageRec AST)
  semantic : Option (StageRec AST)
  codegen : Option (StageRec IR)
  opt : Option (StageRec IR)
  assemble : Option (StageRec Bin)
  errors : Option JsErr

/-- The per-function disassembly loop (lines 134–145 and 156–168): one
entry per function, with a per-function catch that records
`;; disassembly error: <message>` instead of aborting. -/
def disasmMap {IR F : Type} (funcs : IR → List F) (funcName : F → String)
    (dis : F → Except JsErr String) (ir : IR) : List (String × String) :=
  (funcs ir).map fun f =>
    (funcName f,
      match dis f with
      | Except.ok s => s
      | Except.error e => ";; disassembly error: " ++ e.message)

/-- `compileAll` (compiler-bridge.js lines 84–185).  `gs` is the
ambient global state at call time; it is never consulted — the bridge
re-establishes `resetGS` before codegen.  `clock` is the sequence of
`performance.now()` readings, numbered in call order (two per stage:
stage start, stage record). -/
def compileAll {AST IR F Bin : Type} (s : Stages AST IR F Bin)
    (gs : GState) (clock : Nat → ℚ) (source : String) :
    Results AST IR Bin :=
  let tokensRec : StageRec (List Token) :=
    { name := "Tokens", data := tokenize source,
      time := clock 1 - clock 0, disassembly := none }
  match s.parse source with
  | Except.error e =>
    { tokens := some tokensRec, parse := none, semantic := none,
      codegen := none, opt := none, assemble := none,
      errors := some { message := e.message, stack := e.stack } }
  | Except.ok ast =>
    let parseRec : StageRec AST :=
      { name := "AST (ESTree)", data := ast,
        time := clock 3 - clock 2, disassembly := none }
    match s.semantic ast with
    | Except.error e =>
      { tokens := some tokensRec, parse := some parseRec, semantic := none,
        codegen := none, opt := none, assemble := none,
        errors := some { message := e.message, stack := e.stack } }
    | Except.ok semAst =>
      let semRec : StageRec AST :=
        { name := "Semantic Analysis", data := semAst,
          time := clock 5 - clock 4, disassembly := none }
      match s.parse source with
      | Except.error e =>
        { tokens := some tokensRec, parse := some parseRec,
          semantic := some semRec, codegen := none, opt := none,
          assemble := none,
          errors := some { message := e.message, stack := e.stack } }
      | Except.ok freshAst =>
        match s.codegen freshAst resetGS with
        | Except.error e =>
          { tokens := some tokensRec, parse := some parseRec,
            semantic := some semRec, codegen := none, opt := none,
            assemble := none,
            errors := some { message := e.message, stack := e.stack } }
        | Except.ok ir =>
          let preOptDisasm := disasmMap s.funcs s.funcName s.disassembleFunc ir
          let codegenRecRaw : StageRec IR :=
            { name := "Wasm IR", data := ir,
              time := clock 7 - clock 6, disassembly := some preOptDisasm }
          match s.opt ir with
          | Except.error e =>
            { tokens := some tokensRec, parse := some parseRec,
              semantic := some semRec,
              codegen := some codegenRecRaw,
              opt := none, assemble := none,
              errors := some { message := e.message, stack := e.stack } }
          | Except.ok ir2 =>
            let codegenRec : StageRec IR :=
              { name := "Wasm IR", data := ir2,
                time := clock 7 - clock 6, disassembly := some preOptDisasm }
            let postOptDisasm :=
              disasmMap s.funcs s.funcName s.disassembleFunc ir2
            let optRec : StageRec IR :=
              { name := "Optimized Wasm IR", data := ir2,
                time := clock 9 - clock 8, disassembly := some postOptDisasm }
            match s.assemble ir2 with
            | Except.error e =>
              { tokens := some tokensRec, parse := some parseRec,
                semantic := some semRec, codegen := some codegenRec,
                opt := some optRec, assemble := none,
                errors := some { message := e.message, stack := e.stack } }
            | Except.ok bin =>
              let assembleRec : StageRec Bin :=
                { name := "WebAssembly Binary", data := bin,
                  time := clock 11 - clock 10, disassembly := none }
              { tokens := some tokensRec, parse := some parseRec,
                semantic := some semRec, codegen := some codegenRec,
                opt := some optRec,
                assemble := some assembleRec,
                errors := none }

/-! Concrete stage instances used to exhibit the behaviour of
`compileAll` at specific inputs.  The stage functions are numeric so
that each stage's contribution to the output is visible: `semantic`
adds 1 (it is not the identity), `codegen` adds 10, `opt` adds 100,
`assemble` adds 1000. -/

def okStages : Stages Nat Nat Unit Nat :=
  { parse := fun _ => Except.ok 0
    semantic := fun n => Except.ok (n + 1)
    codegen := fun n _ => Except.ok (n + 10)
    funcs := fun _ => []
    funcName := fun _ => ""
    disassembleFunc := fun _ => Except.ok ""
    opt := fun n => Except.ok (n + 100)
    assemble := fun n => Except.ok (n + 1000) }

def failStages : Stages Nat Nat Unit Nat :=
  { parse := fun _ => Except.ok 0
    semantic := fun n => Except.ok (n + 1)
    codegen := fun _ _ => Except.error { message := "boom", stack := "st" }
    funcs := fun _ => []
    funcName := fun _ => ""
    disassembleFunc := fun _ => Except.ok ""
    opt := fun n => Except.ok n
    assemble := fun n => Except.ok n }

/-- An arbitrary dirty ambient state left over from a previous compile. -/
def gs0 : GState :=
  { uniqId := 7, imports := [], valtype := Valtype.i32, pageSize := 3 }

def clock0 : Nat → ℚ := fun _ => 0

/-- The identity clock, a monotone `performance.now()` model. -/
def clockId : Nat → ℚ := fun n => (n : ℚ)

/-- C1 counterexample: with stage functions whose outputs record their
inputs (`semantic` adds 1, `codegen` adds 10, `opt` adds 100), the
recorded codegen output on input "x" is `opt (codegen 0) = 110`, built
from the fresh re-parse `0` — not `opt (codegen 1) = 111`, which is
what consuming the semantic analyzer's annotated tree `1` would have
produced.  So the code generator does not consume the annotated tree. -/
theorem compileAll_not_annotated_cex :
    ((compileAll okStages gs0 clock0 "x").semantic).map StageRec.data = some 1 ∧
    ((compileAll okStages gs0 clock0 "x").codegen).map StageRec.data = some 110 ∧
    okStages.codegen 1 resetGS = Except.ok 11 ∧
    okStages.opt 11 = Except.ok 111 ∧
    (110 : Nat) ≠ 111 := by
  refine ⟨rfl, rfl, rfl, rfl, by omega⟩

/-- C1 (amended): in every successful compilation the stages run in
order — tokenize, parse, analyze, generate, optimize, assemble — and
generate → optimize → assemble is a linear dataflow, but the code
generator consumes a fresh re-parse of the source (equal to the parse
stage's tree, since parsing is deterministic), not the annotated tree
produced by the semantic analyzer, which is only recorded for display. -/
theorem compileAll_pipeline {AST IR F Bin : Type} (s : Stages AST IR F Bin)
    (gs : GState) (clock : Nat → ℚ) (source : String)
    (h : (compileAll s gs clock source).errors = none) :
    ∃ ast semAst ir ir2 bin,
      s.parse source = Except.ok ast ∧
      s.semantic ast = Except.ok semAst ∧
      s.codegen ast resetGS = Except.ok ir ∧
      s.opt ir = Except.ok ir2 ∧
      s.assemble ir2 = Except.ok bin ∧
      ((compileAll s gs clock source).tokens).map StageRec.data =
        some (tokenize source) ∧
      ((compileAll s gs clock source).parse).map StageRec.data = some ast ∧
      ((compileAll s gs clock source).semantic).map StageRec.data = some semAst ∧
      ((compileAll s gs clock source).codegen).map StageRec.data = some ir2 ∧
      ((compileAll s gs clock source).opt).map StageRec.data = some ir2 ∧
      ((compileAll s gs clock source).assemble).map StageRec.data = some bin := by
  rcases hp : s.parse source with e | ast
  · exact absurd h (by simp [compileAll, hp])
  rcases hs : s.semantic ast with e | semAst
  · exact absurd h (by simp [compileAll, hp, hs])
  rcases hc : s.codegen ast resetGS with e | ir
  · exact absurd h (by simp [compileAll, hp, hs, hc])
  rcases ho : s.opt ir with e | ir2
  · exact absurd h (by simp [compileAll, hp, hs, hc, ho])
  rcases ha : s.assemble ir2 with e | bin
  · exact absurd h (by simp [compileAll, hp, hs, hc, ho, ha])
  refine ⟨ast, semAst, ir, ir2, bin, rfl, hs, hc, ho, ha, ?_, ?_, ?_, ?_, ?_, ?_⟩ <;>
    simp [compileAll, hp, hs, hc, ho, ha]

/-- C1 witness: the amended pipeline shape at the concrete instance
`okStages` on "x". -/
theorem compileAll_pipeline_witness :
    (compileAll okStages gs0 clock0 "x").errors = none ∧
    ∃ ast semAst ir ir2 bin,
      okStages.parse "x" = Except.ok ast ∧
      okStages.semantic ast = Except.ok semAst ∧
      okStages.codegen ast resetGS = Except.ok ir ∧
      okStages.opt ir = Except.ok ir2 ∧
      okStages.assemble ir2 = Except.ok bin ∧
      ((compileAll okStages gs0 clock0 "x").tokens).map StageRec.data =
        some (tokenize "x") ∧
      ((compileAll okStages gs0 clock0 "x").parse).map StageRec.data = some ast ∧
      ((compileAll okStages gs0 clock0 "x").semantic).map StageRec.data =
        some semAst ∧
      ((compileAll okStages gs0 clock0 "x").codegen).map StageRec.data =
        some ir2 ∧
      ((compileAll okStages gs0 clock0 "x").opt).map StageRec.data = some ir2 ∧
      ((compileAll okStages gs0 clock0 "x").assemble).map StageRec.data =
        some bin :=
  ⟨rfl, compileAll_pipeline okStages gs0 clock0 "x" rfl⟩

/-- C2 counterexample: with a codegen stage that throws, the result on
"x" reports the error, yet the artifacts of the already-completed
parse and semantic stages are still returned in `result.stages` — a
partial artifact IS returned. -/
theorem compileAll_partial_artifact_cex :
    ((compileAll failStages gs0 clock0 "x").errors).isSome = true ∧
    ((compileAll failStages gs0 clock0 "x").parse).isSome = true ∧
    ((compileAll failStages gs0 clock0 "x").semantic).isSome = true ∧
    ((compileAll failStages gs0 clock0 "x").parse).map StageRec.data = some 0 := by
  refine ⟨rfl, rfl, rfl, rfl⟩

/-- C2 (amended): when a stage fails the pipeline aborts immediately —
no later stage runs, so the recorded stages form a prefix of the
pipeline order and an error means no assembled binary is in the result
— but artifacts of stages that completed before the failure remain in
`result.stages`. -/
theorem compileAll_abort {AST IR F Bin : Type} (s : Stages AST IR F Bin)
    (gs : GState) (clock : Nat → ℚ) (source : String) :
    ((compileAll s gs clock source).tokens).isSome = true ∧
    (((compileAll s gs clock source).semantic).isSome = true →
      ((compileAll s gs clock source).parse).isSome = true) ∧
    (((compileAll s gs clock source).codegen).isSome = true →
      ((compileAll s gs clock source).semantic).isSome = true) ∧
    (((compileAll s gs clock source).opt).isSome = true →
      ((compileAll s gs clock source).codegen).isSome = true) ∧
    (((compileAll s gs clock source).assemble).isSome = true →
      ((compileAll s gs clock source).opt).isSome = true) ∧
    (((compileAll s gs clock source).errors).isSome = true ↔
      ((compileAll s gs clock source).assemble).isNone = true) := by
  rcases hp : s.parse source with e | ast
  · simp [compileAll, hp]
  rcases hs : s.semantic ast with e | semAst
  · simp [compileAll, hp, hs]
  rcases hc : s.codegen ast resetGS with e | ir
  · simp [compileAll, hp, hs, hc]
  rcases ho : s.opt ir with e | ir2
  · simp [compileAll, hp, hs, hc, ho]
  rcases ha : s.assemble ir2 with e | bin
  · simp [compileAll, hp, hs, hc, ho, ha]
  · simp [compileAll, hp, hs, hc, ho, ha]

/-- C2 witness: the abort structure at the concrete failing instance:
codegen fails on "x", the error is reported, and no binary is present. -/
theorem compileAll_abort_witness :
    ((compileAll failStages gs0 clock0 "x").errors).isSome = true ∧
    ((compileAll failStages gs0 clock0 "x").assemble).isNone = true ∧
    ((compileAll failStages gs0 clock0 "x").opt).isSome = false := by
  refine ⟨rfl, ?_, rfl⟩
  exact (compileAll_abort failStages gs0 clock0 "x").2.2.2.2.2.mp rfl

/-- C3: on success, all six stage records — tokens, parse, semantic,
codegen, opt, assemble — are present, and with a monotone clock
(performance.now is monotone) every recorded stage time is ≥ 0. -/
theorem compileAll_times {AST IR F Bin : Type} (s : Stages AST IR F Bin)
    (gs : GState) (clock : Nat → ℚ) (source : String)
    (hmono : Monotone clock)
    (h : (compileAll s gs clock source).errors = none) :
    (∃ a, (compileAll s gs clock source).tokens = some a ∧ 0 ≤ a.time) ∧
    (∃ a, (compileAll s gs clock source).parse = some a ∧ 0 ≤ a.time) ∧
    (∃ a, (compileAll s gs clock source).semantic = some a ∧ 0 ≤ a.time) ∧
    (∃ a, (compileAll s gs clock source).codegen = some a ∧ 0 ≤ a.time) ∧
    (∃ a, (compileAll s gs clock source).opt = some a ∧ 0 ≤ a.time) ∧
    (∃ a, (compileAll s gs clock source).assemble = some a ∧ 0 ≤ a.time) := by
  rcases hp : s.parse source with e | ast
  · exact absurd h (by simp [compileAll, hp])
  rcases hs : s.semantic ast with e | semAst
  · exact absurd h (by simp [compileAll, hp, hs])
  rcases hc : s.codegen ast resetGS with e | ir
  · exact absurd h (by simp [compileAll, hp, hs, hc])
  rcases ho : s.opt ir with e | ir2
  · exact absurd h (by simp [compileAll, hp, hs, hc, ho])
  rcases ha : s.assemble ir2 with e | bin
  · exact absurd h (by simp [compileAll, hp, hs, hc, ho, ha])
  refine ⟨?_, ?_, ?_, ?_, ?_, ?_⟩ <;>
    simp [compileAll, hp, hs, hc, ho, ha] <;>
    first
      | exact hmono (by omega)
      | exact sub_nonneg.mpr (hmono (by omega))

/-- C3 witness: the timing record at a concrete successful compile with
the (monotone) identity clock. -/
theorem compileAll_times_witness :
    Monotone clockId ∧
    (∃ a, (compileAll okStages gs0 clockId "x").tokens = some a ∧ 0 ≤ a.time) ∧
    (∃ a, (compileAll okStages gs0 clockId "x").parse = some a ∧ 0 ≤ a.time) ∧
    (∃ a, (compileAll okStages gs0 clockId "x").semantic = some a ∧ 0 ≤ a.time) ∧
    (∃ a, (compileAll okStages gs0 clockId "x").codegen = some a ∧ 0 ≤ a.time) ∧
    (∃ a, (compileAll okStages gs0 clockId "x").opt = some a ∧ 0 ≤ a.time) ∧
    (∃ a, (compileAll okStages gs0 clockId "x").assemble = some a ∧ 0 ≤ a.time) := by
  have hmono : Monotone clockId := by
    intro a b hab
    simp only [clockId]
    exact_mod_cast hab
  exact ⟨hmono, compileAll_times okStages gs0 clockId "x" hmono rfl⟩

/-- C4: `compileAll` re-establishes fresh codegen state before code
generation — `_uniqId = 0` and the import table re-initialized by
`setupImports` — and consequently its result is independent of the
ambient global state at call time: two calls in the same process (the
second seeing whatever state the first left behind) return identical
results, in particular identical codegen IR and identical assembled
binary bytes. -/
theorem compileAll_deterministic {AST IR F Bin : Type}
    (s : Stages AST IR F Bin) (clock : Nat → ℚ) (source : String)
    (gs1 gs2 : GState) :
    ((compileAll s gs1 clock source).codegen).map StageRec.data =
      ((compileAll s gs2 clock source).codegen).map StageRec.data ∧
    ((compileAll s gs1 clock source).assemble).map StageRec.data =
      ((compileAll s gs2 clock source).assemble).map StageRec.data ∧
    compileAll s gs1 clock source = compileAll s gs2 clock source ∧
    resetGS.uniqId = 0 ∧
    resetGS.imports = setupImports := by
  exact ⟨rfl, rfl, rfl, rfl, rfl⟩

/-- C5: `setupImports` registers exactly the four runtime imports of
the interface table with the stated arities — print (1 parameter, 0
results), printChar (1, 0), time (0, 1), timeOrigin (0, 1) — and this
is exactly the import table in force when codegen starts. -/
theorem setupImports_spec :
    setupImports =
      [{ name := "print", params := 1, results := 0 },
       { name := "printChar", params := 1, results := 0 },
       { name := "time", params := 0, results := 1 },
       { name := "timeOrigin", params := 0, results := 1 }] ∧
    resetGS.imports = setupImports :=
  ⟨rfl, rfl⟩

/-- C8: `compileAll` never throws — it is a total function into
`Results` — and its `errors` field is `none` exactly when every stage
succeeded; when a stage fails, the first failure is caught and
recorded as an object carrying the exception's message and stack. -/
theorem compileAll_catches {AST IR F Bin : Type} (s : Stages AST IR F Bin)
    (gs : GState) (clock : Nat → ℚ) (source : String) :
    ((compileAll s gs clock source).errors = none ↔
      ∃ ast semAst ir ir2 bin,
        s.parse source = Except.ok ast ∧
        s.semantic ast = Except.ok semAst ∧
        s.codegen ast resetGS = Except.ok ir ∧
        s.opt ir = Except.ok ir2 ∧
        s.assemble ir2 = Except.ok bin) ∧
    (∀ e, s.parse source = Except.error e →
      (compileAll s gs clock source).errors =
        some { message := e.message, stack := e.stack }) ∧
    (∀ ast e, s.parse source = Except.ok ast →
      s.semantic ast = Except.error e →
      (compileAll s gs clock source).errors =
        some { message := e.message, stack := e.stack }) ∧
    (∀ ast semAst e, s.parse source = Except.ok ast →
      s.semantic ast = Except.ok semAst →
      s.codegen ast resetGS = Except.error e →
      (compileAll s gs clock source).errors =
        some { message := e.message, stack := e.stack }) ∧
    (∀ ast semAst ir e, s.parse source = Except.ok ast →
      s.semantic ast = Except.ok semAst →
      s.codegen ast resetGS = Except.ok ir →
      s.opt ir = Except.error e →
      (compileAll s gs clock source).errors =
        some { message := e.message, stack := e.stack }) ∧
    (∀ ast semAst ir ir2 e, s.parse source = Except.ok ast →
      s.semantic ast = Except.ok semAst →
      s.codegen ast resetGS = Except.ok ir →
      s.opt ir = Except.ok ir2 →
      s.assemble ir2 = Except.error e →
      (compileAll s gs clock source).errors =
        some { message := e.message, stack := e.stack }) := by
  constructor
  · constructor
    · intro h
      rcases hp : s.parse source with e | ast
      · exact absurd h (by simp [compileAll, hp])
      rcases hs : s.semantic ast with e | semAst
      · exact absurd h (by simp [compileAll, hp, hs])
      rcases hc : s.codegen ast resetGS with e | ir
      · exact absurd h (by simp [compileAll, hp, hs, hc])
      rcases ho : s.opt ir with e | ir2
      · exact absurd h (by simp [compileAll, hp, hs, hc, ho])
      rcases ha : s.assemble ir2 with e | bin
      · exact absurd h (by simp [compileAll, hp, hs, hc, ho, ha])
      exact ⟨ast, semAst, ir, ir2, bin, rfl, hs, hc, ho, ha⟩
    · rintro ⟨ast, semAst, ir, ir2, bin, hp, hs, hc, ho, ha⟩
      simp [compileAll, hp, hs, hc, ho, ha]
  refine ⟨?_, ?_, ?_, ?_, ?_⟩
  · intro e hp
    simp [compileAll, hp]
  · intro ast e hp hs
    simp [compileAll, hp, hs]
  · intro ast semAst e hp hs hc
    simp [compileAll, hp, hs, hc]
  · intro ast semAst ir e hp hs hc ho
    simp [compileAll, hp, hs, hc, ho]
  · intro ast semAst ir ir2 e hp hs hc ho ha
    simp [compileAll, hp, hs, hc, ho, ha]

/-- C8 witness: at the concrete failing instance, the codegen
exception's message and stack are recorded in `result.errors`. -/
theorem compileAll_catches_witness :
    (compileAll failStages gs0 clock0 "x").errors =
      some { message := "boom", stack := "st" } :=
  (compileAll_catches failStages gs0 clock0 "x").2.2.2.1 0 1
    { message := "boom", stack := "st" } rfl rfl rfl

/-- C9: on success, the codegen and opt stage records carry the same
module value — the one module object both fields alias in the JS,
which the optimizer mutates in place — so the codegen stage's `data`
reflects the post-optimization IR; only the pre-computed
`codegen.disassembly` (built before `opt` ran) preserves the
pre-optimization form, while `opt.disassembly` shows the optimized
form. -/
theorem compileAll_alias {AST IR F Bin : Type} (s : Stages AST IR F Bin)
    (gs : GState) (clock : Nat → ℚ) (source : String)
    (h : (compileAll s gs clock source).errors = none) :
    ∃ ast ir ir2,
      s.parse source = Except.ok ast ∧
      s.codegen ast resetGS = Except.ok ir ∧
      s.opt ir = Except.ok ir2 ∧
      ((compileAll s gs clock source).codegen).map StageRec.data = some ir2 ∧
      ((compileAll s gs clock source).opt).map StageRec.data = some ir2 ∧
      Option.bind ((compileAll s gs clock source).codegen) StageRec.disassembly =
        some (disasmMap s.funcs s.funcName s.disassembleFunc ir) ∧
      Option.bind ((compileAll s gs clock source).opt) StageRec.disassembly =
        some (disasmMap s.funcs s.funcName s.disassembleFunc ir2) := by
  rcases hp : s.parse source with e | ast
  · exact absurd h (by simp [compileAll, hp])
  rcases hs : s.semantic ast with e | semAst
  · exact absurd h (by simp [compileAll, hp, hs])
  rcases hc : s.codegen ast resetGS with e | ir
  · exact absurd h (by simp [compileAll, hp, hs, hc])
  rcases ho : s.opt ir with e | ir2
  · exact absurd h (by simp [compileAll, hp, hs, hc, ho])
  rcases ha : s.assemble ir2 with e | bin
  · exact absurd h (by simp [compileAll, hp, hs, hc, ho, ha])
  refine ⟨ast, ir, ir2, rfl, hc, ho, ?_, ?_, ?_, ?_⟩ <;>
    simp [compileAll, hp, hs, hc, ho, ha]

/-- C10: `tokenize` is total — defined by a terminating recursion
whose variant is justified by `firstMatch` consuming at least one
character per iteration (last conjunct) — and every returned token
satisfies `start < end ≤ source.length` with `value` equal to the
`slice(start, end)` of the source, tokens appear in strictly
increasing non-overlapping position order, and whitespace spans are
omitted. -/
theorem tokenize_sound (source : String) :
    (∀ t ∈ tokenize source,
        t.start < t.endPos ∧ t.endPos ≤ source.data.length ∧
        t.value = (source.data.drop t.start).take (t.endPos - t.start) ∧
        t.type ≠ "whitespace") ∧
    List.Chain' (fun a b => a.endPos ≤ b.start) (tokenize source) ∧
    (∀ (cs : List Char) (ty : String) (n : Nat),
        firstMatch cs = some (ty, n) → 1 ≤ n ∧ n ≤ cs.length) := by
  have h := tokenizeAux_sound source.data source.data.length 0 (by omega)
  refine ⟨fun t ht => ?_, h.2, fun cs ty n hm => firstMatch_bound cs ty n hm⟩
  have h1 := h.1 t ht
  exact ⟨h1.2.1, h1.2.2.1, h1.2.2.2.1, h1.2.2.2.2⟩

theorem tokenize_x :
    tokenize "x" = [Token.mk "identifier" ['x'] 0 1] := by
  have h1 : tokenizeAux "x".data 0 =
      Token.mk "identifier" (("x".data.drop 0).take 1) 0 (0 + 1) ::
        tokenizeAux "x".data (0 + 1) :=
    tokenizeAux_tok "x".data 0 1 "identifier" (by decide) (by decide)
      (by decide)
  have h2 : tokenizeAux "x".data (0 + 1) = [] :=
    tokenizeAux_stop "x".data (0 + 1) (by decide)
  rw [tokenize, h1, h2]
  decide

/-- C10 witness: the invariants at the concrete input "x", whose only
token is the identifier `x` spanning `[0, 1)`. -/
theorem tokenize_sound_witness :
    Token.mk "identifier" ['x'] 0 1 ∈ tokenize "x" ∧
    (0 : Nat) < 1 ∧ (1 : Nat) ≤ "x".data.length ∧
    (['x'] : List Char) = ("x".data.drop 0).take (1 - 0) ∧
    firstMatch "x".data = some ("identifier", 1) ∧ (1 : Nat) ≤ 1 := by
  have hmem : Token.mk "identifier" ['x'] 0 1 ∈ tokenize "x" := by
    rw [tokenize_x]
    exact List.mem_singleton.mpr rfl
  have h1 := (tokenize_sound "x").1 _ hmem
  have h2 := (tokenize_sound "x").2.2 "x".data "identifier" 1 (by decide)
  exact ⟨hmem, h1.1, h1.2.1, h1.2.2.1, by decide, h2.1⟩

/-- C9 witness: at the concrete successful instance (`opt` adds 100,
so the pre- and post-optimization modules differ: 10 vs 110), both
stage records hold the post-optimization module. -/
theorem compileAll_alias_witness :
    (compileAll okStages gs0 clock0 "x").errors = none ∧
    ∃ ast ir ir2,
      okStages.parse "x" = Except.ok ast ∧
      okStages.codegen ast resetGS = Except.ok ir ∧
      okStages.opt ir = Except.ok ir2 ∧
      ((compileAll okStages gs0 clock0 "x").codegen).map StageRec.data =
        some ir2 ∧
      ((compileAll okStages gs0 clock0 "x").opt).map StageRec.data = some ir2 ∧
      Option.bind ((compileAll okStages gs0 clock0 "x").codegen)
          StageRec.disassembly =
        some (disasmMap okStages.funcs okStages.funcName
          okStages.disassembleFunc ir) ∧
      Option.bind ((compileAll okStages gs0 clock0 "x").opt)
          StageRec.disassembly =
        some (disasmMap okStages.funcs okStages.funcName
          okStages.disassembleFunc ir2) :=
  ⟨rfl, compileAll_alias okStages gs0 clock0 "x" rfl⟩

/-! ## Codegen function records (modelled from the spec)

`codegen.js` is not part of this snapshot.  The model below follows
the spec's words: "Every function has exactly two return values
(value-scalar, type-id); every `return` emits in that order", the
expression-lowering table ("Numeric literal: `const.f64 v` ;
`const.i32 TYPE_NUMBER`"), and the synthetic `#main` wrapper. -/

/-- Modelled from the spec: runtime type ids from `types.js` are small
integers; the exact numeric values are not pinned by the spec. -/
def TYPE_NUMBER : Nat := 0

def TYPE_UNDEFINED : Nat := 4

/-- A Wasm IR instruction of the model (operands still raw numbers). -/
inductive MInstr where
  | f64const (v : ℚ)
  | i32const (n : Nat)
  | localGet (i : Nat)
  | drop
  | ret
deriving DecidableEq, Repr

inductive MExpr where
  | num (v : ℚ)
deriving DecidableEq, Repr

inductive MStmt where
  | ret (e : MExpr)
  | exprStmt (e : MExpr)
deriving DecidableEq, Repr

structure MFuncDecl where
  name : String
  body : List MStmt
deriving DecidableEq, Repr

structure MProgram where
  body : List MStmt
  funcs : List MFuncDecl
deriving DecidableEq, Repr

/-- A function record: name, index, instruction sequence, parameter
and return types (`funcs[].returns`). -/
structure MFunc where
  name : String
  index : Nat
  wasm : List MInstr
  params : List Valtype
  returns : List Valtype
deriving DecidableEq, Repr

/-- Modelled from the spec: expression lowering pushes the value and
reports the static type id of the expression. -/
def lowerExpr : MExpr → List MInstr × Nat
  | MExpr.num v => ([MInstr.f64const v], TYPE_NUMBER)

/-- Modelled from the spec: `return` emits the value, then the
type-id, then `return` — in that order; an expression statement drops
its value. -/
def lowerStmt : MStmt → List MInstr
  | MStmt.ret e =>
      (lowerExpr e).1 ++ [MInstr.i32const (lowerExpr e).2, MInstr.ret]
  | MStmt.exprStmt e => (lowerExpr e).1 ++ [MInstr.drop]

/-- Modelled from the spec: a lowered function record; under the
default value type every `returns` list is `[f64, i32]` (value scalar,
then type id), and a function body falling off the end returns
`undefined` (value, type-id, `return`). -/
def lowerFunc (idx : Nat) (name : String) (body : List MStmt) : MFunc :=
  { name := name, index := idx,
    wasm := (body.map lowerStmt).flatten ++
      [MInstr.f64const 0, MInstr.i32const TYPE_UNDEFINED, MInstr.ret],
    params := [], returns := [Valtype.f64, Valtype.i32] }

/-- Modelled from the spec: codegen lowers each declared function and
wraps the program body in the synthetic exported `#main`. -/
def codegenModel (p : MProgram) : List MFunc :=
  (p.funcs.enum.map fun fi => lowerFunc fi.1 fi.2.name fi.2.body) ++
    [lowerFunc p.funcs.length "#main" p.body]

/-- Checks that every `return` instruction is immediately preceded by
an `i32.const` type-id push (the tail of the value-then-type-id
emission order). -/
def retWellTagged : List MInstr → Bool
  | [] => true
  | MInstr.i32const _ :: MInstr.ret :: rest => retWellTagged rest
  | MInstr.ret :: _ => false
  | _ :: rest => retWellTagged rest

/-- Instruction sequences in which every `return` occurs as part of a
complete `i32.const t; return` pair. -/
inductive SelfTagged : List MInstr → Prop where
  | nil : SelfTagged []
  | pair (t : Nat) (rest : List MInstr) :
      SelfTagged rest → SelfTagged (MInstr.i32const t :: MInstr.ret :: rest)
  | cons (i : MInstr) (rest : List MInstr) :
      i ≠ MInstr.ret → SelfTagged rest → SelfTagged (i :: rest)

theorem SelfTagged.append {a b : List MInstr}
    (ha : SelfTagged a) (hb : SelfTagged b) : SelfTagged (a ++ b) := by
  induction ha with
  | nil => simpa using hb
  | pair t rest h ih => exact SelfTagged.pair t _ ih
  | cons i rest hne h ih => exact SelfTagged.cons i _ hne ih

theorem SelfTagged.not_ret_head {rest : List MInstr}
    (h : SelfTagged (MInstr.ret :: rest)) : False := by
  cases h with
  | cons i rest hne _ => exact hne rfl

theorem SelfTagged.wellTagged {l : List MInstr}
    (h : SelfTagged l) : retWellTagged l = true := by
  induction h with
  | nil => rfl
  | pair t rest h ih => simpa [retWellTagged] using ih
  | cons i rest hne h ih =>
    cases rest with
    | nil => cases i <;> simp_all [retWellTagged]
    | cons j tl =>
      cases j with
      | ret => exact absurd h SelfTagged.not_ret_head
      | f64const v => cases i <;> simp_all [retWellTagged]
      | i32const m => cases i <;> simp_all [retWellTagged]
      | localGet m => cases i <;> simp_all [retWellTagged]
      | drop => cases i <;> simp_all [retWellTagged]

theorem lowerStmt_selfTagged (st : MStmt) : SelfTagged (lowerStmt st) := by
  cases st with
  | ret e =>
    cases e with
    | num v =>
      exact SelfTagged.cons _ _ (by simp) (SelfTagged.pair _ _ SelfTagged.nil)
  | exprStmt e =>
    cases e with
    | num v =>
      exact SelfTagged.cons _ _ (by simp)
        (SelfTagged.cons _ _ (by simp) SelfTagged.nil)

theorem flatten_selfTagged (l : List MStmt) :
    SelfTagged ((l.map lowerStmt).flatten) := by
  induction l with
  | nil => exact SelfTagged.nil
  | cons s t ih =>
    simpa using SelfTagged.append (lowerStmt_selfTagged s) ih

theorem lowerFunc_wellTagged (idx : Nat) (name : String) (body : List MStmt) :
    retWellTagged (lowerFunc idx name body).wasm = true := by
  refine SelfTagged.wellTagged (SelfTagged.append (flatten_selfTagged body) ?_)
  exact SelfTagged.cons _ _ (by simp) (SelfTagged.pair _ _ SelfTagged.nil)

/-- C6: every function record produced by code generation has a
`returns` list of exactly two entries — the value scalar then the
type id, `[f64, i32]` under the default value type — and every
`return` emits value, then type-id, then `return`, in that order. -/
theorem codegenModel_returns (p : MProgram) :
    (∀ f ∈ codegenModel p,
        f.returns = [Valtype.f64, Valtype.i32] ∧
        retWellTagged f.wasm = true) ∧
    (∀ e, lowerStmt (MStmt.ret e) =
        (lowerExpr e).1 ++ [MInstr.i32const (lowerExpr e).2, MInstr.ret]) := by
  constructor
  · intro f hf
    simp only [codegenModel, List.mem_append, List.mem_map,
      List.mem_singleton] at hf
    rcases hf with ⟨fi, _, rfl⟩ | rfl
    · exact ⟨rfl, lowerFunc_wellTagged _ _ _⟩
    · exact ⟨rfl, lowerFunc_wellTagged _ _ _⟩
  · intro e
    rfl

/-- C6 witness: the invariant at the concrete one-statement program
`return 3`. -/
theorem codegenModel_returns_witness :
    lowerFunc 0 "#main" [MStmt.ret (MExpr.num 3)] ∈
      codegenModel { body := [MStmt.ret (MExpr.num 3)], funcs := [] } ∧
    (lowerFunc 0 "#main" [MStmt.ret (MExpr.num 3)]).returns =
      [Valtype.f64, Valtype.i32] ∧
    retWellTagged (lowerFunc 0 "#main" [MStmt.ret (MExpr.num 3)]).wasm =
      true := by
  have hmem : lowerFunc 0 "#main" [MStmt.ret (MExpr.num 3)] ∈
      codegenModel { body := [MStmt.ret (MExpr.num 3)], funcs := [] } := by
    simp [codegenModel]
  have h := (codegenModel_returns
    { body := [MStmt.ret (MExpr.num 3)], funcs := [] }).1 _ hmem
  exact ⟨hmem, h.1, h.2⟩

/-! ## Assembler deferred resolution (modelled from the spec)

`assemble.js` is not part of this snapshot.  The model follows the
spec: "Before encoding, walk every function body and replace each
deferred instruction by invoking its resolver.  Fail with
UnresolvedReferenceError if any deferred survives (a generator bug)."
A deferred instruction `[null, resolver]` is modelled by the result of
invoking its resolver: `some` replacement if the forward reference was
filled in, `none` if not. -/

/-- An assembler-level instruction: a concrete opcode with operands,
or the deferred form `[null, resolver]`. -/
inductive AInstr where
  | op (opcode : Nat) (operands : List Nat)
  | deferred (resolver : Option (Nat × List Nat))
deriving DecidableEq, Repr

structure AFunc where
  name : String
  wasm : List AInstr
deriving DecidableEq, Repr

structure AModule where
  funcs : List AFunc
deriving DecidableEq, Repr

inductive AsmError where
  | unresolvedReference
deriving DecidableEq, Repr

/-- Invoke a deferred instruction's resolver; a resolver that yields
an instruction replaces the deferred entry, anything else survives. -/
def resolveInstr : AInstr → AInstr
  | AInstr.deferred (some (o, args)) => AInstr.op o args
  | i => i

def isDeferred : AInstr → Bool
  | AInstr.deferred _ => true
  | _ => false

/-- The resolution pass: walk every function body, invoking every
resolver. -/
def resolveModule (m : AModule) : AModule :=
  { funcs := m.funcs.map fun f => { name := f.name, wasm := f.wasm.map resolveInstr } }

def encodeInstr : AInstr → List Nat
  | AInstr.op opcode operands => opcode :: operands
  | AInstr.deferred _ => []

/-- Binary emission (wasm magic + version, then the encoded bodies);
only reached once no deferred form remains. -/
def encodeModule (m : AModule) : List Nat :=
  [0x00, 0x61, 0x73, 0x6d, 0x01, 0x00, 0x00, 0x00] ++
    (m.funcs.map fun f => (f.wasm.map encodeInstr).flatten).flatten

/-- Modelled from the spec: the assembler resolves all deferred
instructions, then fails with `UnresolvedReferenceError` if any
survives, and otherwise encodes the resolved module. -/
def assembleModel (m : AModule) : Except AsmError (List Nat) :=
  let r := resolveModule m
  if r.funcs.any fun f => f.wasm.any isDeferred then
    Except.error AsmError.unresolvedReference
  else
    Except.ok (encodeModule r)

/-- C7: after assembly no deferred instruction remains anywhere in the
module — if assembly succeeds, the resolved module that was encoded is
deferred-free — and if any deferred form survives resolution, assembly
fails with `UnresolvedReferenceError` instead of emitting a binary. -/
theorem assembleModel_no_deferred (m : AModule) :
    (∀ bin, assembleModel m = Except.ok bin →
      ∀ f ∈ (resolveModule m).funcs, ∀ i ∈ f.wasm, isDeferred i = false) ∧
    ((∃ f ∈ m.funcs, AInstr.deferred none ∈ f.wasm) →
      assembleModel m = Except.error AsmError.unresolvedReference) := by
  constructor
  · intro bin hok f hf i hi
    simp only [assembleModel] at hok
    split at hok
    · exact absurd hok (by simp)
    · rename_i hany
      simp only [List.any_eq_true, not_exists, not_and] at hany
      by_contra hdef
      simp only [Bool.not_eq_false] at hdef
      exact absurd (List.any_eq_true.mpr ⟨i, hi, hdef⟩) (by
        intro hcontra
        exact absurd hcontra (by simpa using hany f hf))
  · rintro ⟨f, hf, hi⟩
    simp only [assembleModel]
    have hany : (resolveModule m).funcs.any (fun g => g.wasm.any isDeferred) =
        true := by
      refine List.any_eq_true.mpr ?_
      refine ⟨{ name := f.name, wasm := f.wasm.map resolveInstr }, ?_, ?_⟩
      · simp only [resolveModule, List.mem_map]
        exact ⟨f, hf, rfl⟩
      · refine List.any_eq_true.mpr ⟨AInstr.deferred none, ?_, rfl⟩
        simp only [List.mem_map]
        exact ⟨AInstr.deferred none, hi, rfl⟩
    rw [if_pos hany]

def exF1 : AFunc :=
  { name := "f", wasm := [AInstr.deferred (some (16, [0])), AInstr.op 11 []] }

def exM1 : AModule := { funcs := [exF1] }

def exF2 : AFunc := { name := "g", wasm := [AInstr.deferred none] }

def exM2 : AModule := { funcs := [exF2] }

/-- C7 witness: a module whose one deferred reference resolves
assembles to a binary free of deferred forms, and a module with an
unresolvable deferred fails with `UnresolvedReferenceError`. -/
theorem assembleModel_no_deferred_witness :
    (∀ f ∈ (resolveModule exM1).funcs, ∀ i ∈ f.wasm,
      isDeferred i = false) ∧
    assembleModel exM2 = Except.error AsmError.unresolvedReference := by
  constructor
  · exact (assembleModel_no_deferred exM1).1 (encodeModule (resolveModule exM1))
      (by rfl)
  · exact (assembleModel_no_deferred exM2).2 ⟨exF2, by decide, by decide⟩

end Porffor
